import Mathlib

/-!
Verification of the file-extraction core of `@hyperse/apollo-upload-client`
(`src/createUploadLink/UploadLink.ts`: functions `extractFiles` / `recurse`,
the argument checks of `extractFiles`, and the multipart `map` construction of
the `UploadLink` request handler).

The JavaScript value graph is shallowly embedded with an explicit heap:
containers (arrays, `FileList` instances, plain objects) live at natural-number
addresses so that reference identity, diamond sharing and cycles are
representable.  Clone objects are allocated at fresh addresses (starting above
every input address), so "newly allocated" and "the input graph is never
written" are expressible facts.  The recursive `recurse` of the source is
embedded as `recurseF` with a fuel argument; `recurseF_isSome` proves that the
fuel bound used by the top-level `extractFiles` always suffices, which is the
termination argument corresponding to the source's `recursed` open set.
-/

set_option maxHeartbeats 1000000

namespace UploadClient

/-- JavaScript primitive values (immutable leaves of the value graph). -/
inductive Scalar where
  | null
  | undef
  | bool (b : Bool)
  | num (n : Int)
  | str (s : String)
deriving DecidableEq, Repr

/-- A JavaScript value: a primitive, a file-like object (identified by an
identity token, since `File`/`Blob` instances compare by reference), or a
reference to a container stored in the heap. -/
inductive JSValue where
  | scalar (s : Scalar)
  | file (id : Nat)
  | ref (id : Nat)
deriving DecidableEq, Repr

/-- A heap node: an array, a `FileList`, a plain object (`proto = true` for an
`Object` instance, `false` for a null-prototype object), or any other object
kind that `recurse` does not recognize as a list or plain object. -/
inductive JSNode where
  | arr (items : List JSValue)
  | flist (items : List JSValue)
  | obj (proto : Bool) (entries : List (String × JSValue))
  | other
deriving DecidableEq, Repr

/-- The heap: container identities mapped to their nodes. -/
abbrev Heap := List (Nat × JSNode)

/-- A value in the clone produced by `recurse`: the `null` placeholder put in
place of an extracted file, a value returned unchanged (scalars, files that
the classifier did not match, unrecognized objects), or a reference to a
freshly allocated clone node. -/
inductive CValue where
  | null
  | orig (v : JSValue)
  | cref (addr : Nat)
deriving DecidableEq, Repr

/-- A clone node: `recurse` clones both arrays and `FileList` instances into
arrays, and plain objects into plain objects with the same prototype kind. -/
inductive CNode where
  | arr (items : List CValue)
  | obj (proto : Bool) (entries : List (String × CValue))
deriving DecidableEq, Repr

/-- First-match association-list lookup (models `Map.prototype.get`). -/
def alookup {α β : Type} [DecidableEq α] : List (α × β) → α → Option β
  | [], _ => none
  | (k, b) :: rest, a => if k = a then some b else alookup rest a

/-- Association-list update: replace the first binding of the key in place,
or append a new binding (models `Map.prototype.set`). -/
def aset {α β : Type} [DecidableEq α] : List (α × β) → α → β → List (α × β)
  | [], a, b => [(a, b)]
  | (k, c) :: rest, a, b => if k = a then (a, b) :: rest else (k, c) :: aset rest a b

/-- Keys of an association list, in storage order. -/
def akeys {α β : Type} (l : List (α × β)) : List α := l.map Prod.fst

/-- The files-map update performed when `recurse` meets an extractable value:
`filePaths.push(path)` if the file already has an entry (in place, preserving
the entry's position), else `files.set(value, [path])` (appending a new entry
at the end, preserving first-seen insertion order). -/
def addPath : List (JSValue × List String) → JSValue → String → List (JSValue × List String)
  | [], f, p => [(f, [p])]
  | (g, ps) :: rest, f, p =>
    if g = f then (g, ps ++ [p]) :: rest else (g, ps) :: addPath rest f p

/-- `Array.isArray(value) || value instanceof FileList`. -/
def isListNode : JSNode → Bool
  | .arr _ => true
  | .flist _ => true
  | _ => false

/-- `isPlainObject(value)`. -/
def isPlainNode : JSNode → Bool
  | .obj _ _ => true
  | _ => false

/-- `valueIsList || valueIsPlainObject`: the container kinds `recurse`
descends into and clones. -/
def recognized (n : JSNode) : Bool := isListNode n || isPlainNode n

/-- The children of a container together with the path segment each child
contributes: array/`FileList` items are paired with their decimal index,
object entries with their key, in iteration order. -/
def kidsOf : JSNode → List (String × JSValue)
  | .arr items => items.enum.map (fun p => (toString p.1, p.2))
  | .flist items => items.enum.map (fun p => (toString p.1, p.2))
  | .obj _ entries => entries
  | .other => []

/-- The empty clone created for a container before its children are recursed
into: `[]` for lists, `{}` or `Object.create(null)` for plain objects. -/
def emptyClone : JSNode → CNode
  | .obj proto _ => .obj proto []
  | _ => .arr []

/-- The clone node after all children clones have been inserted at their
positions/keys. -/
def fillClone : JSNode → List CValue → CNode
  | .obj proto entries, cs => .obj proto ((entries.map Prod.fst).zip cs)
  | _, cs => .arr cs

/-- The mutable state threaded through `recurse`: the `clones` memo
(container identity to clone address), the store of allocated clone nodes,
the next fresh clone address, and the `files` map. -/
structure ExtractState where
  clones : List (Nat × Nat)
  cheap : List (Nat × CNode)
  next : Nat
  files : List (JSValue × List String)
deriving DecidableEq, Repr

/-- `new Set(recursed).add(value)`: the per-branch open set with the current
container added. -/
def setAdd (s : List Nat) (a : Nat) : List Nat := if a ∈ s then s else s ++ [a]

/-- The effect of the extractable-value branch of `recurse` on the state. -/
def recordFile (st : ExtractState) (v : JSValue) (path : String) : ExtractState :=
  { st with files := addPath st.files v path }

/-- The state right after a new empty clone for container `id` has been
allocated at the fresh address `st.next` and registered in the clone memo —
before any of the container's children are recursed into. -/
def regState (st : ExtractState) (id : Nat) (node : JSNode) : ExtractState :=
  { st with
      clones := st.clones ++ [(id, st.next)],
      cheap := st.cheap ++ [(st.next, emptyClone node)],
      next := st.next + 1 }

/-- `let clone = clones.get(value); const uncloned = !clone; if (uncloned)
{ clone = ...; clones.set(value, clone) }`: returns the clone address, the
state after the (possible) registration, and the `uncloned` flag. -/
def registerResult (st : ExtractState) (id : Nat) (node : JSNode) :
    Nat × ExtractState × Bool :=
  match alookup st.clones id with
  | some a => (a, st, false)
  | none => (st.next, regState st id node, true)

/-- Runs the per-child recursion over a container's children in order,
threading the state, collecting the children clones. -/
def runKids (rec : JSValue → String → ExtractState → Option (CValue × ExtractState)) :
    List (String × JSValue) → String → ExtractState → Option (List CValue × ExtractState)
  | [], _, st => some ([], st)
  | (seg, kid) :: rest, pfx, st =>
    match rec kid (pfx ++ seg) st with
    | none => none
    | some (c, st1) =>
      match runKids rec rest pfx st1 with
      | none => none
      | some (cs, st2) => some (c :: cs, st2)

/-- The recognized-container branch of `recurse`: register the (possibly new)
clone in the memo first, skip the children if the container is already open on
this branch, otherwise recurse into every child with
`pathPrefix = path ? path + "." : ""` and, only when the clone is new, fill it
with the children clones. -/
def cloneContainer
    (recNext : JSValue → String → List Nat → ExtractState → Option (CValue × ExtractState))
    (id : Nat) (node : JSNode) (path : String) (recursed : List Nat)
    (st : ExtractState) : Option (CValue × ExtractState) :=
  let rr := registerResult st id node
  let addr := rr.1
  let st1 := rr.2.1
  let uncloned := rr.2.2
  if id ∈ recursed then some (.cref addr, st1)
  else
    let pfx := if path = "" then "" else path ++ "."
    match runKids (fun kid p s => recNext kid p (setAdd recursed id) s) (kidsOf node) pfx st1 with
    | none => none
    | some (children, st2) =>
      some (.cref addr,
        if uncloned then { st2 with cheap := aset st2.cheap addr (fillClone node children) }
        else st2)

/-- The inner `recurse` function of `extractFiles`, with fuel.  The branches
mirror the source in order: the classifier test first (returning the `null`
placeholder and recording the path), then the recognized-container branch,
and otherwise the value is returned unchanged. -/
def recurseF (H : Heap) (isF : JSValue → Bool) :
    Nat → JSValue → String → List Nat → ExtractState → Option (CValue × ExtractState)
  | 0, _, _, _, _ => none
  | fuel + 1, v, path, recursed, st =>
    if isF v then some (.null, recordFile st v path)
    else
      match v with
      | .ref id =>
        match alookup H id with
        | some node =>
          if recognized node then
            cloneContainer (fun kid p r s => recurseF H isF fuel kid p r s)
              id node path recursed st
          else some (.orig v, st)
        | none => some (.orig v, st)
      | _ => some (.orig v, st)

/-- The container identities present in the heap. -/
def heapIds (H : Heap) : Finset Nat := (H.map Prod.fst).toFinset

/-- A strict upper bound on every container identity in the heap; clone
addresses are allocated from here up, so they are fresh (never an input
identity). -/
def freshBase (H : Heap) : Nat := (H.map Prod.fst).foldr (fun a b => max a b) 0 + 1

/-- The initial state of one `extractFiles` call: empty clone memo, empty
clone store, empty files map. -/
def initState (H : Heap) : ExtractState := ⟨[], [], freshBase H, []⟩

/-- The number of heap identities not yet on the current branch: the measure
that decreases at every descent into a fresh container. -/
def fuelMeasure (H : Heap) (recursed : List Nat) : Nat :=
  ((heapIds H).filter (fun x => x ∉ recursed)).card

/-- `extractFiles(value, isExtractable, path)` after its argument checks:
runs `recurse(value, path, new Set())` with the empty clone memo and files
map.  The fuel bound always suffices (theorem `recurseF_isSome`), so the
`getD` default is never returned. -/
def extractFiles (H : Heap) (isF : JSValue → Bool) (value : JSValue) (path : String) :
    CValue × ExtractState :=
  (recurseF H isF ((heapIds H).card + 1) value path [] (initState H)).getD
    (.orig value, initState H)

/-- The second argument of a call to `extractFiles` as the argument checks
see it: either a callable classifier or a non-function. -/
inductive ClassifierArg where
  | fn (f : JSValue → Bool)
  | notFn

/-- The third argument of a call to `extractFiles` (after the `path = ""`
default has been applied when the argument was omitted or `undefined`):
either a string or a non-string. -/
inductive PathArg where
  | str (s : String)
  | notStr
deriving DecidableEq

/-- A JavaScript-level call to `extractFiles`: `argsLen` is
`arguments.length`, `value` the first argument (`undefined` when fewer than
one argument was passed), and the classifier and path arguments as above. -/
structure JSCall where
  argsLen : Nat
  value : JSValue
  classifier : ClassifierArg
  path : PathArg

def ClassifierArg.isCallable : ClassifierArg → Bool
  | .fn _ => true
  | .notFn => false

def PathArg.isString : PathArg → Bool
  | .str _ => true
  | .notStr => false

/-- The full `extractFiles` entry point with its three synchronous argument
checks, in source order, before any traversal. -/
def extractFilesJS (call : JSCall) (H : Heap) : Except String (CValue × ExtractState) :=
  if call.argsLen = 0 then .error "Argument 1 `value` is required."
  else
    match call.classifier with
    | .notFn => .error "Argument 2 `isExtractable` must be a function."
    | .fn f =>
      match call.path with
      | .notStr => .error "Argument 3 `path` must be a string."
      | .str p => .ok (extractFiles H f call.value p)

/-- The `map` object built by the `UploadLink` request handler:
`let i = 0; files.forEach((paths) => { map[++i] = paths })` — keys are the
1-based sequential index of each files-map entry in iteration order, values
are that entry's path list. -/
def buildMap : Nat → List (JSValue × List String) → List (String × List String)
  | _, [] => []
  | i, (_, ps) :: rest => (toString (i + 1), ps) :: buildMap (i + 1) rest

/-- The file parts appended to the form body:
`i = 0; files.forEach((_paths, file) => { append(form, String(++i), file) })`
— each distinct file keyed by the same 1-based sequential index string. -/
def buildAppends : Nat → List (JSValue × List String) → List (String × JSValue)
  | _, [] => []
  | i, (f, _) :: rest => (toString (i + 1), f) :: buildAppends (i + 1) rest

/-- The request body chosen by the `UploadLink` request handler. -/
inductive RequestBody where
  | plain
  | multipart (fieldMap : List (String × List String)) (fileFields : List (String × JSValue))

/-- `if (!files.size) { fall back to HttpLink } else { build the multipart
form }`: the branch on the extraction result taken by the request handler. -/
def chooseBody (files : List (JSValue × List String)) : RequestBody :=
  if files.isEmpty then .plain else .multipart (buildMap 0 files) (buildAppends 0 files)

/-- Graph reachability in the input value graph: `Reach H v w` holds when `w`
is `v` itself or a value reachable from `v` by repeatedly stepping from a
container reference to one of the container's children. -/
inductive Reach (H : Heap) : JSValue → JSValue → Prop where
  | refl (v : JSValue) : Reach H v v
  | step {u : JSValue} {id : Nat} {node : JSNode} {seg : String} {w : JSValue} :
      Reach H u (.ref id) → alookup H id = some node → (seg, w) ∈ kidsOf node →
      Reach H u w

/-- The shallow correspondence between an input value and its clone value,
relative to a clone memo: recognized containers map to a reference to their
registered clone address, everything else is returned unchanged.  (This is
the no-extractable-file case, so no `null` placeholders occur.) -/
def CKidOk (H : Heap) (clones : List (Nat × Nat)) (w : JSValue) (c : CValue) : Prop :=
  match w with
  | .ref id =>
    match alookup H id with
    | some node =>
      if recognized node = true then ∃ a, alookup clones id = some a ∧ c = .cref a
      else c = .orig w
    | none => c = .orig w
  | _ => c = .orig w

/-- A complete clone node for an input node: the fill of the node's children
with clone values each of which corresponds shallowly to the child. -/
def CNodeOk (H : Heap) (clones : List (Nat × Nat)) (node : JSNode) (cn : CNode) : Prop :=
  ∃ cs, cn = fillClone node cs ∧
    List.Forall₂ (fun kv c => CKidOk H clones kv.2 c) (kidsOf node) cs

/-- Address discipline of the extraction state: every allocated clone address
and every address registered in the clone memo is below the fresh counter. -/
def wfState (st : ExtractState) : Prop :=
  (∀ a ∈ akeys st.cheap, a < st.next) ∧ (∀ q ∈ st.clones, q.2 < st.next)

/-- State-evolution facts of one `recurse` call: the clone memo only grows at
the end, the fresh counter is monotone, clone nodes allocated before the call
are never modified, every clone address is either old or fresh, and the
address discipline is preserved. -/
def MonoSt (st st' : ExtractState) : Prop :=
  (∃ d, st'.clones = st.clones ++ d) ∧
  st.next ≤ st'.next ∧
  (∀ x, x < st.next → alookup st'.cheap x = alookup st.cheap x) ∧
  (∀ a, a ∈ akeys st'.cheap → a ∈ akeys st.cheap ∨ st.next ≤ a) ∧
  (wfState st → wfState st')

/-- The traversal invariant for the no-extractable-file correctness proof:
the address discipline holds, registered clone addresses are pairwise
distinct, every identity open on the branch is registered, and every
registered container that is not open has a complete clone node. -/
def InvSt (H : Heap) (st : ExtractState) (recursed : List Nat) : Prop :=
  wfState st ∧
  (st.clones.map Prod.snd).Nodup ∧
  (∀ id ∈ recursed, (alookup st.clones id).isSome = true) ∧
  (∀ id a, alookup st.clones id = some a →
    ∃ node, alookup H id = some node ∧ recognized node = true ∧
      (id ∉ recursed → ∃ cn, alookup st.cheap a = some cn ∧ CNodeOk H st.clones node cn))

/-- The spec's worked scenario: `{ a: file1, b: [file1, file2] }`. -/
def heapC1 : Heap :=
  [(0, .obj true [("a", .file 1), ("b", .ref 1)]), (1, .arr [.file 1, .file 2])]

/-- A classifier recognizing exactly `file1` and `file2`. -/
def isFileC1 : JSValue → Bool := fun v => v == .file 1 || v == .file 2

/-- Diamond sharing: `{ x: c, y: c }` where `c = [5]` is one container
instance reachable via two paths. -/
def heapC5 : Heap :=
  [(0, .obj true [("x", .ref 1), ("y", .ref 1)]), (1, .arr [.scalar (.num 5)])]

/-- One file occurring at two paths: `{ p: f, q: f }`. -/
def heapC6 : Heap := [(0, .obj true [("p", .file 7), ("q", .file 7)])]

/-- A classifier recognizing exactly the file of `heapC6`. -/
def isFileC6 : JSValue → Bool := fun v => v == .file 7

/-- A directly self-referential container: `a = [a]`. -/
def heapC10 : Heap := [(0, .arr [.ref 0])]

/-- An indirectly self-referential container: `a = [b]`, `b = [a]` — the
container contains itself through a descendant. -/
def heapC10b : Heap := [(0, .arr [.ref 1]), (1, .arr [.ref 0])]

/-- A sample mid-traversal state with container `0` registered at clone
address `1`, used to instantiate hypotheses about revisits. -/
def stShared : ExtractState := ⟨[(0, 1)], [(1, .arr [])], 2, []⟩

theorem alookup_mem {α β : Type} [DecidableEq α] {l : List (α × β)} {a : α} {b : β}
    (h : alookup l a = some b) : (a, b) ∈ l := by
  induction l with
  | nil => simp [alookup] at h
  | cons hd tl ih =>
    rw [alookup] at h
    split at h
    · rename_i heq
      cases h
      cases hd
      simp_all
    · exact List.mem_cons_of_mem _ (ih h)

theorem alookup_eq_none {α β : Type} [DecidableEq α] {l : List (α × β)} {a : α}
    (h : a ∉ akeys l) : alookup l a = none := by
  induction l with
  | nil => rfl
  | cons hd tl ih =>
    rw [alookup]
    rw [akeys, List.map_cons] at h
    split
    · rename_i heq
      exact absurd (heq ▸ List.mem_cons_self _ _) h
    · exact ih (fun hm => h (List.mem_cons_of_mem _ hm))

theorem alookup_mem_keys {α β : Type} [DecidableEq α] {l : List (α × β)} {a : α} {b : β}
    (h : alookup l a = some b) : a ∈ akeys l :=
  List.mem_map_of_mem Prod.fst (alookup_mem h)

theorem alookup_append {α β : Type} [DecidableEq α] (l d : List (α × β)) (a : α) :
    alookup (l ++ d) a =
      match alookup l a with
      | some b => some b
      | none => alookup d a := by
  induction l with
  | nil => simp [alookup]
  | cons hd tl ih =>
    obtain ⟨k, b⟩ := hd
    by_cases hk : k = a
    · simp [alookup, hk]
    · simp [alookup, hk, ih]

theorem alookup_append_some {α β : Type} [DecidableEq α] {l : List (α × β)} {a : α} {b : β}
    (d : List (α × β)) (h : alookup l a = some b) : alookup (l ++ d) a = some b := by
  rw [alookup_append, h]

theorem alookup_aset_self {α β : Type} [DecidableEq α] (l : List (α × β)) (a : α) (b : β) :
    alookup (aset l a b) a = some b := by
  induction l with
  | nil => simp [aset, alookup]
  | cons hd tl ih =>
    obtain ⟨k, c⟩ := hd
    by_cases hk : k = a
    · simp [aset, hk, alookup]
    · simp [aset, hk, alookup, ih]

theorem akeys_cons {α β : Type} (k : α) (c : β) (l : List (α × β)) :
    akeys ((k, c) :: l) = k :: akeys l := rfl

theorem alookup_aset_ne {α β : Type} [DecidableEq α] (l : List (α × β)) (a a2 : α) (b : β)
    (h : a2 ≠ a) : alookup (aset l a b) a2 = alookup l a2 := by
  induction l with
  | nil =>
    show (if a = a2 then some b else alookup [] a2) = alookup [] a2
    rw [if_neg (fun hh => h hh.symm)]
  | cons hd tl ih =>
    obtain ⟨k, c⟩ := hd
    by_cases hk : k = a
    · subst hk
      rw [aset, if_pos rfl, alookup, alookup, if_neg (fun hh => h hh.symm),
        if_neg (fun hh => h hh.symm)]
    · rw [aset, if_neg hk, alookup, alookup]
      by_cases hka : k = a2
      · rw [if_pos hka, if_pos hka]
      · rw [if_neg hka, if_neg hka, ih]

theorem akeys_aset_sub {α β : Type} [DecidableEq α] (l : List (α × β)) (a : α) (b : β) :
    ∀ x ∈ akeys (aset l a b), x ∈ akeys l ∨ x = a := by
  induction l with
  | nil =>
    intro x hx
    rw [aset, akeys_cons] at hx
    rcases List.mem_cons.1 hx with h1 | h1
    · exact Or.inr h1
    · simp [akeys] at h1
  | cons hd tl ih =>
    obtain ⟨k, c⟩ := hd
    intro x hx
    by_cases hk : k = a
    · rw [aset, if_pos hk, akeys_cons] at hx
      rcases List.mem_cons.1 hx with h1 | h1
      · exact Or.inr h1
      · exact Or.inl (by rw [akeys_cons]; exact List.mem_cons_of_mem _ h1)
    · rw [aset, if_neg hk, akeys_cons] at hx
      rcases List.mem_cons.1 hx with h1 | h1
      · exact Or.inl (by rw [akeys_cons]; exact h1 ▸ List.mem_cons_self _ _)
      · rcases ih x h1 with h2 | h2
        · exact Or.inl (by rw [akeys_cons]; exact List.mem_cons_of_mem _ h2)
        · exact Or.inr h2

theorem alookup_addPath_self (fs : List (JSValue × List String)) (f : JSValue) (p : String) :
    alookup (addPath fs f p) f = some (((alookup fs f).getD []) ++ [p]) := by
  induction fs with
  | nil => simp [addPath, alookup]
  | cons hd tl ih =>
    obtain ⟨g, ps⟩ := hd
    by_cases hg : g = f
    · simp [addPath, hg, alookup]
    · simp [addPath, hg, alookup, ih]

theorem alookup_addPath_other (fs : List (JSValue × List String)) (f g : JSValue) (p : String)
    (h : g ≠ f) : alookup (addPath fs f p) g = alookup fs g := by
  induction fs with
  | nil =>
    show (if f = g then some [p] else alookup [] g) = alookup [] g
    rw [if_neg (fun hh => h hh.symm)]
  | cons hd tl ih =>
    obtain ⟨k, ps⟩ := hd
    by_cases hk : k = f
    · subst hk
      rw [addPath, if_pos rfl, alookup, alookup, if_neg (fun hh => h hh.symm),
        if_neg (fun hh => h hh.symm)]
    · rw [addPath, if_neg hk, alookup, alookup]
      by_cases hkg : k = g
      · rw [if_pos hkg, if_pos hkg]
      · rw [if_neg hkg, if_neg hkg, ih]

theorem akeys_addPath (fs : List (JSValue × List String)) (f : JSValue) (p : String) :
    akeys (addPath fs f p) =
      if (alookup fs f).isSome then akeys fs else akeys fs ++ [f] := by
  induction fs with
  | nil => simp [addPath, akeys, alookup]
  | cons hd tl ih =>
    obtain ⟨g, ps⟩ := hd
    by_cases hg : g = f
    · simp [addPath, hg, akeys, alookup]
    · simp only [addPath, if_neg hg, akeys, List.map_cons, alookup,
        if_neg (fun hh => hg hh)]
      rw [akeys] at ih
      rw [ih]
      split <;> rfl

/-- Definitional unfolding of `recurseF` at positive fuel, stated once so that
proofs can rewrite with it without the side conditions of the automatically
generated per-pattern equations. -/
theorem recurseF_succ (H : Heap) (isF : JSValue → Bool) (fuel : Nat) (v : JSValue)
    (path : String) (recursed : List Nat) (st : ExtractState) :
    recurseF H isF (fuel + 1) v path recursed st =
      if isF v then some (.null, recordFile st v path)
      else
        match v with
        | .ref id =>
          match alookup H id with
          | some node =>
            if recognized node then
              cloneContainer (fun kid p r s => recurseF H isF fuel kid p r s)
                id node path recursed st
            else some (.orig v, st)
          | none => some (.orig v, st)
        | _ => some (.orig v, st) := by
  rfl

theorem mem_heapIds_of_alookup {H : Heap} {id : Nat} {node : JSNode}
    (h : alookup H id = some node) : id ∈ heapIds H := by
  have := alookup_mem h
  simp only [heapIds, List.mem_toFinset]
  exact List.mem_map_of_mem Prod.fst this

theorem fuelMeasure_setAdd_lt {H : Heap} {recursed : List Nat} {id : Nat}
    (hmem : id ∈ heapIds H) (hnot : id ∉ recursed) :
    fuelMeasure H (setAdd recursed id) < fuelMeasure H recursed := by
  apply Finset.card_lt_card
  constructor
  · intro x hx
    rw [Finset.mem_filter] at hx ⊢
    refine ⟨hx.1, fun hm => hx.2 ?_⟩
    simp only [setAdd, if_neg hnot, List.mem_append, List.mem_singleton]
    exact Or.inl hm
  · intro hsub
    have hid : id ∈ (heapIds H).filter (fun x => x ∉ recursed) :=
      Finset.mem_filter.2 ⟨hmem, hnot⟩
    have := hsub hid
    rw [Finset.mem_filter] at this
    apply this.2
    simp [setAdd, if_neg hnot]

theorem runKids_isSome
    {rec : JSValue → String → ExtractState → Option (CValue × ExtractState)}
    (h : ∀ k p s, (rec k p s).isSome) :
    ∀ ks pfx st, (runKids rec ks pfx st).isSome := by
  intro ks
  induction ks with
  | nil => intro pfx st; simp [runKids]
  | cons hd tl ih =>
    intro pfx st
    obtain ⟨seg, kid⟩ := hd
    rw [runKids]
    rcases hr : rec kid (pfx ++ seg) st with _ | ⟨c, st1⟩
    · have := h kid (pfx ++ seg) st
      rw [hr] at this
      simp at this
    · rcases hk : runKids rec tl pfx st1 with _ | ⟨cs, st2⟩
      · have := ih pfx st1
        rw [hk] at this
        simp at this
      · simp [hk]

/-- Fuel sufficiency: with more fuel than the number of heap identities not
yet open on the branch, `recurseF` always completes.  This is the termination
argument of the source's `recursed`-set mechanism: every descent into a fresh
container strictly shrinks the set of not-yet-open heap identities. -/
theorem recurseF_isSome (H : Heap) (isF : JSValue → Bool) :
    ∀ fuel v path recursed st, fuelMeasure H recursed < fuel →
      (recurseF H isF fuel v path recursed st).isSome := by
  intro fuel
  induction fuel with
  | zero => intro v path recursed st h; exact absurd h (Nat.not_lt_zero _)
  | succ n ih =>
    intro v path recursed st h
    rw [recurseF_succ]
    split
    · simp
    · cases v with
      | scalar s => simp
      | file id => simp
      | ref id =>
        rcases hH : alookup H id with _ | node
        · simp [hH]
        · simp only [hH]
          split
          · rw [cloneContainer]
            simp only []
            split
            · simp
            · rename_i hnot
              have hlt : fuelMeasure H (setAdd recursed id) < n := by
                have h1 := fuelMeasure_setAdd_lt (mem_heapIds_of_alookup hH) hnot
                omega
              have hsome : ∀ k p s, (recurseF H isF n k p (setAdd recursed id) s).isSome :=
                fun k p s => ih k p (setAdd recursed id) s hlt
              rcases hrk : runKids (fun kid p s => recurseF H isF n kid p (setAdd recursed id) s)
                  (kidsOf node) (if path = "" then "" else path ++ ".")
                  (registerResult st id node).2.1 with _ | ⟨cs, st2⟩
              · have := runKids_isSome hsome (kidsOf node)
                  (if path = "" then "" else path ++ ".") (registerResult st id node).2.1
                rw [hrk] at this
                simp at this
              · simp
          · simp

theorem extractFiles_eq {H : Heap} {isF : JSValue → Bool} {v : JSValue} {p : String}
    {out : CValue × ExtractState}
    (h : recurseF H isF ((heapIds H).card + 1) v p [] (initState H) = some out) :
    extractFiles H isF v p = out := by
  unfold extractFiles
  rw [h]
  rfl

/-- C1: on input `{ a: file1, b: [file1, file2] }` with empty path prefix and
a classifier recognizing exactly `file1` and `file2`, `extractFiles` returns
the clone `{ a: null, b: [null, null] }` and a files map with exactly two
entries in first-seen order: `file1` at the path list `["a", "b.0"]` and
`file2` at `["b.1"]` — with no leading separator, since the prefix was the
empty string. -/
theorem extractFiles_scenario_c1 :
    extractFiles heapC1 isFileC1 (.ref 0) "" =
      (.cref 2,
       ⟨[(0, 2), (1, 3)],
        [(2, .obj true [("a", .null), ("b", .cref 3)]),
         (3, .arr [.null, .null])],
        4,
        [(.file 1, ["a", "b.0"]), (.file 2, ["b.1"])]⟩) := by
  rfl

/-- C3: `extractFilesJS` produces an error result exactly when one of the
three argument-contract violations holds — the call carried zero arguments,
the classifier is not callable, or the path argument is not a string — and
such an error is independent of the heap (it is raised before any traversal);
for every other call the result is a success value. -/
theorem extractFilesJS_error_iff (call : JSCall) (H : Heap) :
    ((extractFilesJS call H).isOk = true ↔
      (call.argsLen ≠ 0 ∧ call.classifier.isCallable = true ∧ call.path.isString = true)) ∧
    ((extractFilesJS call H).isOk = false →
      ∀ H2 : Heap, extractFilesJS call H = extractFilesJS call H2) := by
  obtain ⟨n, v, cls, pth⟩ := call
  constructor
  · cases n with
    | zero => simp [extractFilesJS, Except.isOk, Except.toBool]
    | succ m =>
      cases cls <;> cases pth <;>
        simp [extractFilesJS, ClassifierArg.isCallable, PathArg.isString,
          Except.isOk, Except.toBool]
  · cases n with
    | zero => intro _ H2; simp [extractFilesJS]
    | succ m =>
      cases cls <;> cases pth <;>
        simp [extractFilesJS, ClassifierArg.isCallable, PathArg.isString,
          Except.isOk, Except.toBool]

theorem extractFilesJS_error_iff_witness :
    (extractFilesJS ⟨3, .scalar .null, .fn (fun _ => false), .str ""⟩ []).isOk = true :=
  ((extractFilesJS_error_iff ⟨3, .scalar .null, .fn (fun _ => false), .str ""⟩ []).1).2
    ⟨by decide, rfl, rfl⟩

/-- C9: a call that passes `undefined` (or `null`) explicitly as the value —
so that `arguments.length` is nonzero — together with a callable classifier
that rejects it and a string path does not error: the result is a success
whose clone is the passed value unchanged and whose files map is empty.
Moreover the `value is required` error is never produced by a call with a
nonzero argument count. -/
theorem undefined_value_no_error (call : JSCall) (H : Heap) (f : JSValue → Bool) (s : String)
    (hlen : call.argsLen ≠ 0) (hcls : call.classifier = .fn f) (hpath : call.path = .str s)
    (hval : call.value = .scalar .undef ∨ call.value = .scalar .null)
    (hf : f call.value = false) :
    extractFilesJS call H = .ok (.orig call.value, initState H) ∧
    (∀ call2 : JSCall, ∀ H2 : Heap, call2.argsLen ≠ 0 →
      extractFilesJS call2 H2 ≠ .error "Argument 1 `value` is required.") := by
  constructor
  · rw [extractFilesJS, if_neg hlen, hcls, hpath]
    have hout : recurseF H f ((heapIds H).card + 1) call.value s [] (initState H) =
        some (.orig call.value, initState H) := by
      rw [recurseF_succ, if_neg (by rw [hf]; exact Bool.false_ne_true)]
      rcases hval with hv | hv <;> rw [hv]
    show Except.ok (extractFiles H f call.value s) =
      Except.ok (CValue.orig call.value, initState H)
    rw [extractFiles_eq hout]
  · intro call2 H2 hlen2
    rw [extractFilesJS, if_neg hlen2]
    cases call2.classifier with
    | notFn => simp
    | fn g =>
      cases call2.path with
      | notStr => simp
      | str s2 => simp

theorem undefined_value_no_error_witness :
    extractFilesJS ⟨3, .scalar .undef, .fn (fun _ => false), .str ""⟩ [] =
      .ok (.orig (.scalar .undef), initState []) :=
  (undefined_value_no_error ⟨3, .scalar .undef, .fn (fun _ => false), .str ""⟩ []
    (fun _ => false) "" (by decide) rfl rfl (Or.inl rfl) rfl).1

theorem buildMap_keys (files : List (JSValue × List String)) :
    ∀ i, (buildMap i files).map Prod.fst =
      (List.range' (i + 1) files.length).map toString := by
  induction files with
  | nil => intro i; simp [buildMap]
  | cons hd tl ih =>
    intro i
    obtain ⟨f, ps⟩ := hd
    rw [buildMap]
    simp only [List.map_cons, List.length_cons, List.range'_succ, ih (i + 1)]

theorem buildMap_vals (files : List (JSValue × List String)) :
    ∀ i, (buildMap i files).map Prod.snd = files.map Prod.snd := by
  induction files with
  | nil => intro i; simp [buildMap]
  | cons hd tl ih =>
    intro i
    obtain ⟨f, ps⟩ := hd
    simp [buildMap, ih (i + 1)]

theorem buildAppends_keys (files : List (JSValue × List String)) :
    ∀ i, (buildAppends i files).map Prod.fst = (buildMap i files).map Prod.fst := by
  induction files with
  | nil => intro i; simp [buildMap, buildAppends]
  | cons hd tl ih =>
    intro i
    obtain ⟨f, ps⟩ := hd
    simp [buildMap, buildAppends, ih (i + 1)]

theorem buildAppends_vals (files : List (JSValue × List String)) :
    ∀ i, (buildAppends i files).map Prod.snd = files.map Prod.fst := by
  induction files with
  | nil => intro i; simp [buildAppends]
  | cons hd tl ih =>
    intro i
    obtain ⟨f, ps⟩ := hd
    simp [buildAppends, ih (i + 1)]

/-- C7: when the files map is non-empty the request handler builds the
multipart body; its `map` object has keys `"1", "2", ...` — the 1-based
sequential index of each files-map entry in iteration order — with values
exactly the recorded path lists, and each distinct file is appended keyed by
the same sequential index string. -/
theorem multipart_map_indexing (files : List (JSValue × List String)) (hne : files ≠ []) :
    chooseBody files = .multipart (buildMap 0 files) (buildAppends 0 files) ∧
    (buildMap 0 files).map Prod.fst = (List.range' 1 files.length).map toString ∧
    (buildMap 0 files).map Prod.snd = files.map Prod.snd ∧
    (buildAppends 0 files).map Prod.fst = (buildMap 0 files).map Prod.fst ∧
    (buildAppends 0 files).map Prod.snd = files.map Prod.fst := by
  refine ⟨?_, buildMap_keys files 0, buildMap_vals files 0, buildAppends_keys files 0,
    buildAppends_vals files 0⟩
  rw [chooseBody, if_neg (by simpa using hne)]

theorem multipart_map_indexing_witness :
    ([(JSValue.file 1, ["a", "b.0"]), (JSValue.file 2, ["b.1"])] :
        List (JSValue × List String)) ≠ [] ∧
    chooseBody [(JSValue.file 1, ["a", "b.0"]), (JSValue.file 2, ["b.1"])] =
      .multipart [("1", ["a", "b.0"]), ("2", ["b.1"])]
        [("1", JSValue.file 1), ("2", JSValue.file 2)] := by
  refine ⟨by decide, ?_⟩
  have h := (multipart_map_indexing
    [(JSValue.file 1, ["a", "b.0"]), (JSValue.file 2, ["b.1"])] (by decide)).1
  rw [h]
  rfl

/-- C6: when `recurse` meets an extractable value it appends the current path
to that value's recorded path list (a new singleton entry at the end of the
files map if the value had none), leaves every other entry untouched, and
preserves the key order — so a file met at `P1` and then at `P2` ends with
the path list `[P1, P2]`, never reordered; the final conjunct checks the
two-occurrence scenario `{ p: f, q: f }` end to end. -/
theorem filePaths_append_order (H : Heap) (isF : JSValue → Bool) (fuel : Nat) (f : JSValue)
    (p : String) (recursed : List Nat) (st : ExtractState) (hf : isF f = true) :
    recurseF H isF (fuel + 1) f p recursed st = some (.null, recordFile st f p) ∧
    alookup (recordFile st f p).files f = some (((alookup st.files f).getD []) ++ [p]) ∧
    (∀ g, g ≠ f → alookup (recordFile st f p).files g = alookup st.files g) ∧
    akeys (recordFile st f p).files =
      (if (alookup st.files f).isSome then akeys st.files else akeys st.files ++ [f]) ∧
    (extractFiles heapC6 isFileC6 (.ref 0) "").2.files = [(.file 7, ["p", "q"])] := by
  refine ⟨?_, alookup_addPath_self st.files f p,
    fun g hg => alookup_addPath_other st.files f g p hg,
    akeys_addPath st.files f p, by rfl⟩
  rw [recurseF_succ, if_pos hf]

theorem filePaths_append_order_witness :
    isFileC6 (.file 7) = true ∧
    alookup (recordFile (initState heapC6) (.file 7) "p").files (.file 7) = some ["p"] := by
  have h := filePaths_append_order heapC6 isFileC6 0 (.file 7) "p" [] (initState heapC6) rfl
  exact ⟨rfl, by rw [h.2.1]; rfl⟩

theorem setAdd_mem_self (s : List Nat) (a : Nat) : a ∈ setAdd s a := by
  unfold setAdd
  split
  · assumption
  · simp

theorem le_foldr_max (l : List Nat) : ∀ x ∈ l, x ≤ l.foldr (fun a b => max a b) 0 := by
  induction l with
  | nil => simp
  | cons hd tl ih =>
    intro x hx
    rcases List.mem_cons.1 hx with h | h
    · subst h
      exact le_max_left _ _
    · exact le_trans (ih x h) (le_max_right _ _)

theorem lt_freshBase_of_mem {H : Heap} {id : Nat} (h : id ∈ heapIds H) : id < freshBase H := by
  rw [heapIds, List.mem_toFinset] at h
  have := le_foldr_max (H.map Prod.fst) id h
  unfold freshBase
  omega

theorem MonoSt_refl (st : ExtractState) : MonoSt st st :=
  ⟨⟨[], by simp⟩, le_refl _, fun _ _ => rfl, fun a ha => Or.inl ha, id⟩

theorem MonoSt_files (st : ExtractState) (fs : List (JSValue × List String)) :
    MonoSt st { st with files := fs } :=
  ⟨⟨[], by simp⟩, le_refl _, fun _ _ => rfl, fun a ha => Or.inl ha, id⟩

theorem MonoSt_trans {s1 s2 s3 : ExtractState} (h12 : MonoSt s1 s2) (h23 : MonoSt s2 s3) :
    MonoSt s1 s3 := by
  obtain ⟨⟨d1, hc1⟩, hn1, hch1, hk1, hw1⟩ := h12
  obtain ⟨⟨d2, hc2⟩, hn2, hch2, hk2, hw2⟩ := h23
  refine ⟨⟨d1 ++ d2, by rw [hc2, hc1, List.append_assoc]⟩, le_trans hn1 hn2, ?_, ?_,
    fun hw => hw2 (hw1 hw)⟩
  · intro x hx
    rw [hch2 x (lt_of_lt_of_le hx hn1), hch1 x hx]
  · intro a ha
    rcases hk2 a ha with h | h
    · exact hk1 a h
    · exact Or.inr (le_trans hn1 h)

theorem runKids_mono {rec : JSValue → String → ExtractState → Option (CValue × ExtractState)}
    (hrec : ∀ k p s rr s', rec k p s = some (rr, s') → MonoSt s s') :
    ∀ ks pfx st cs st', runKids rec ks pfx st = some (cs, st') → MonoSt st st' := by
  intro ks
  induction ks with
  | nil =>
    intro pfx st cs st' h
    rw [runKids] at h
    simp only [Option.some_inj, Prod.mk.injEq] at h
    obtain ⟨h1, h2⟩ := h
    subst h2
    exact MonoSt_refl _
  | cons hd tl ih =>
    intro pfx st cs st' h
    obtain ⟨seg, kid⟩ := hd
    rw [runKids] at h
    rcases hr : rec kid (pfx ++ seg) st with _ | ⟨c1, s1⟩
    · rw [hr] at h
      exact absurd h (by simp)
    · rw [hr] at h
      simp only [] at h
      rcases hk : runKids rec tl pfx s1 with _ | ⟨cs1, s2⟩
      · rw [hk] at h
        exact absurd h (by simp)
      · rw [hk] at h
        simp only [Option.some_inj, Prod.mk.injEq] at h
        obtain ⟨h1, h2⟩ := h
        subst h2
        exact MonoSt_trans (hrec _ _ _ _ _ hr) (ih pfx s1 cs1 _ hk)

theorem registerResult_some {st : ExtractState} {id a : Nat} {node : JSNode}
    (h : alookup st.clones id = some a) :
    registerResult st id node = (a, st, false) := by
  rw [registerResult, h]

theorem registerResult_none {st : ExtractState} {id : Nat} {node : JSNode}
    (h : alookup st.clones id = none) :
    registerResult st id node = (st.next, regState st id node, true) := by
  rw [registerResult, h]

theorem regState_clones (st : ExtractState) (id : Nat) (node : JSNode) :
    (regState st id node).clones = st.clones ++ [(id, st.next)] := rfl

theorem regState_cheap (st : ExtractState) (id : Nat) (node : JSNode) :
    (regState st id node).cheap = st.cheap ++ [(st.next, emptyClone node)] := rfl

theorem regState_next (st : ExtractState) (id : Nat) (node : JSNode) :
    (regState st id node).next = st.next + 1 := rfl

theorem regState_files (st : ExtractState) (id : Nat) (node : JSNode) :
    (regState st id node).files = st.files := rfl

theorem mono_register (st : ExtractState) (id : Nat) (node : JSNode) :
    MonoSt st (regState st id node) := by
  refine ⟨⟨[(id, st.next)], rfl⟩, by rw [regState_next]; omega, ?_, ?_, ?_⟩
  · intro x hx
    rw [regState_cheap, alookup_append]
    cases hc : alookup st.cheap x with
    | some b => rfl
    | none =>
      show alookup ((st.next, emptyClone node) :: []) x = none
      rw [alookup, if_neg (by omega)]
      rfl
  · intro a ha
    rw [regState_cheap, akeys, List.map_append] at ha
    rcases List.mem_append.1 ha with h1 | h1
    · exact Or.inl h1
    · rw [List.map_singleton, List.mem_singleton] at h1
      exact Or.inr (le_of_eq h1.symm)
  · intro hw
    obtain ⟨hw1, hw2⟩ := hw
    constructor
    · intro a ha
      rw [regState_cheap, akeys, List.map_append] at ha
      rw [regState_next]
      rcases List.mem_append.1 ha with h1 | h1
      · exact lt_trans (hw1 a h1) (Nat.lt_succ_self _)
      · rw [List.map_singleton, List.mem_singleton] at h1
        omega
    · intro q hq
      rw [regState_clones] at hq
      rw [regState_next]
      rcases List.mem_append.1 hq with h1 | h1
      · exact lt_trans (hw2 q h1) (Nat.lt_succ_self _)
      · rw [List.mem_singleton] at h1
        subst h1
        exact Nat.lt_succ_self _

theorem cloneContainer_mono
    {recNext : JSValue → String → List Nat → ExtractState → Option (CValue × ExtractState)}
    {id : Nat} {node : JSNode} {path : String} {recursed : List Nat} {st : ExtractState}
    {r : CValue} {st' : ExtractState}
    (hrec : ∀ k p rl s rr s', recNext k p rl s = some (rr, s') → MonoSt s s')
    (h : cloneContainer recNext id node path recursed st = some (r, st')) :
    MonoSt st st' := by
  rw [cloneContainer] at h
  rcases hreg : alookup st.clones id with _ | a
  · rw [registerResult_none hreg] at h
    simp only [] at h
    split at h
    · simp only [Option.some_inj, Prod.mk.injEq] at h
      obtain ⟨h1, h2⟩ := h
      subst h2
      exact mono_register st id node
    · rcases hrk : runKids (fun kid p s => recNext kid p (setAdd recursed id) s) (kidsOf node)
          (if path = "" then "" else path ++ ".") (regState st id node) with _ | ⟨children, st2⟩
      · rw [hrk] at h
        exact absurd h (by simp)
      · rw [hrk] at h
        simp only [] at h
        simp only [if_true] at h
        simp only [Option.some_inj, Prod.mk.injEq] at h
        obtain ⟨h1, h2⟩ := h
        have hm1 : MonoSt st (regState st id node) := mono_register st id node
        have hm2 : MonoSt (regState st id node) st2 :=
          runKids_mono (fun k p s rr s' hc => hrec k p _ s rr s' hc) _ _ _ _ _ hrk
        have hm12 : MonoSt st st2 := MonoSt_trans hm1 hm2
        obtain ⟨⟨d12, hc12⟩, hn12, hch12, hk12, hw12⟩ := hm12
        have hnext1 : st.next + 1 ≤ st2.next := by
          have := hm2.2.1
          rw [regState_next] at this
          exact this
        subst h2
        refine ⟨⟨d12, hc12⟩, hn12, ?_, ?_, ?_⟩
        · intro x hx
          show alookup (aset st2.cheap st.next (fillClone node children)) x = alookup st.cheap x
          rw [alookup_aset_ne _ _ _ _ (by omega), hch12 x hx]
        · intro a2 ha2
          have ha2' : a2 ∈ akeys (aset st2.cheap st.next (fillClone node children)) := ha2
          rcases akeys_aset_sub st2.cheap st.next (fillClone node children) a2 ha2' with h1 | h1
          · exact hk12 a2 h1
          · exact Or.inr (le_of_eq h1.symm)
        · intro hw
          obtain ⟨hw1, hw2⟩ := hw12 hw
          constructor
          · intro a2 ha2
            have ha2' : a2 ∈ akeys (aset st2.cheap st.next (fillClone node children)) := ha2
            rcases akeys_aset_sub st2.cheap st.next (fillClone node children) a2 ha2' with h1 | h1
            · exact hw1 a2 h1
            · subst h1
              show st.next < st2.next
              omega
          · exact hw2
  · rw [registerResult_some hreg] at h
    simp only [] at h
    split at h
    · simp only [Option.some_inj, Prod.mk.injEq] at h
      obtain ⟨h1, h2⟩ := h
      subst h2
      exact MonoSt_refl _
    · rcases hrk : runKids (fun kid p s => recNext kid p (setAdd recursed id) s) (kidsOf node)
          (if path = "" then "" else path ++ ".") st with _ | ⟨children, st2⟩
      · rw [hrk] at h
        exact absurd h (by simp)
      · rw [hrk] at h
        simp only [if_false] at h
        simp only [Option.some_inj, Prod.mk.injEq] at h
        obtain ⟨h1, h2⟩ := h
        subst h2
        exact runKids_mono (fun k p s rr s' hc => hrec k p _ s rr s' hc) _ _ _ _ _ hrk

theorem recurseF_mono (H : Heap) (isF : JSValue → Bool) :
    ∀ fuel v path recursed st r st',
      recurseF H isF fuel v path recursed st = some (r, st') → MonoSt st st' := by
  intro fuel
  induction fuel with
  | zero =>
    intro v path recursed st r st' h
    simp [recurseF] at h
  | succ n ih =>
    intro v path recursed st r st' h
    rw [recurseF_succ] at h
    by_cases hf : isF v = true
    · rw [if_pos hf] at h
      simp only [Option.some_inj, Prod.mk.injEq] at h
      obtain ⟨h1, h2⟩ := h
      subst h2
      exact MonoSt_files st _
    · rw [if_neg hf] at h
      cases v with
      | scalar s =>
        simp only [Option.some_inj, Prod.mk.injEq] at h
        obtain ⟨h1, h2⟩ := h
        subst h2
        exact MonoSt_refl st
      | file i =>
        simp only [Option.some_inj, Prod.mk.injEq] at h
        obtain ⟨h1, h2⟩ := h
        subst h2
        exact MonoSt_refl st
      | ref id =>
        rcases hH : alookup H id with _ | node
        · simp only [hH, Option.some_inj, Prod.mk.injEq] at h
          obtain ⟨h1, h2⟩ := h
          subst h2
          exact MonoSt_refl st
        · simp only [hH] at h
          split at h
          · exact cloneContainer_mono (fun k p rl s rr s' hc => ih k p rl s rr s' hc) h
          · simp only [Option.some_inj, Prod.mk.injEq] at h
            obtain ⟨h1, h2⟩ := h
            subst h2
            exact MonoSt_refl st

/-- C5: a visit of a container that is already registered in the clone memo
(reachable earlier via another path) returns a reference to the very same
registered clone address — both routes share one clone instance — and the
clone node stored at that address is left untouched: children are inserted
only on the first visit of the container identity.  The final conjunct runs
the diamond `{ x: c, y: c }` with `c = [5]` end to end: both positions hold
a reference to the single clone address `3`. -/
theorem shared_container_single_clone (H : Heap) (isF : JSValue → Bool) (fuel : Nat)
    (id a : Nat) (node : JSNode) (path : String) (recursed : List Nat) (st : ExtractState)
    (r : CValue) (st' : ExtractState)
    (hH : alookup H id = some node) (hrecog : recognized node = true)
    (hfile : isF (.ref id) = false)
    (hreg : alookup st.clones id = some a)
    (hwf : wfState st)
    (hrun : recurseF H isF (fuel + 1) (.ref id) path recursed st = some (r, st')) :
    r = .cref a ∧
    alookup st'.cheap a = alookup st.cheap a ∧
    (∃ d, st'.clones = st.clones ++ d) ∧
    (extractFiles heapC5 (fun _ => false) (.ref 0) "").2.cheap =
      [(2, .obj true [("x", .cref 3), ("y", .cref 3)]),
       (3, .arr [.orig (.scalar (.num 5))])] := by
  rw [recurseF_succ] at hrun
  rw [if_neg (by rw [hfile]; exact Bool.false_ne_true)] at hrun
  simp only [hH] at hrun
  rw [if_pos hrecog] at hrun
  rw [cloneContainer] at hrun
  rw [registerResult_some hreg] at hrun
  simp only [] at hrun
  split at hrun
  · simp only [Option.some_inj, Prod.mk.injEq] at hrun
    obtain ⟨h1, h2⟩ := hrun
    subst h2
    exact ⟨h1.symm, rfl, ⟨[], by simp⟩, rfl⟩
  · rcases hrk : runKids (fun kid p s => recurseF H isF fuel kid p (setAdd recursed id) s)
        (kidsOf node) (if path = "" then "" else path ++ ".") st with _ | ⟨children, st2⟩
    · rw [hrk] at hrun
      exact absurd hrun (by simp)
    · rw [hrk] at hrun
      simp only [if_false] at hrun
      simp only [Option.some_inj, Prod.mk.injEq] at hrun
      obtain ⟨h1, h2⟩ := hrun
      subst h2
      have hm : MonoSt st st2 :=
        runKids_mono (fun k p s rr s' hc => recurseF_mono H isF fuel k p _ s rr s' hc)
          _ _ _ _ _ hrk
      have ha : a < st.next := hwf.2 (id, a) (alookup_mem hreg)
      exact ⟨h1.symm, hm.2.2.1 a ha, hm.1, rfl⟩

theorem shared_container_single_clone_witness :
    CValue.cref 3 = CValue.cref 3 ∧
    alookup (⟨[(1, 3)], [(3, .arr [])], 4, []⟩ : ExtractState).cheap 3 =
      alookup (⟨[(1, 3)], [(3, .arr [])], 4, []⟩ : ExtractState).cheap 3 ∧
    (∃ d, (⟨[(1, 3)], [(3, .arr [])], 4, []⟩ : ExtractState).clones = [(1, 3)] ++ d) ∧
    (extractFiles heapC5 (fun _ => false) (.ref 0) "").2.cheap =
      [(2, .obj true [("x", .cref 3), ("y", .cref 3)]),
       (3, .arr [.orig (.scalar (.num 5))])] := by
  have h := shared_container_single_clone heapC5 (fun _ => false) 4 1 3
    (.arr [.scalar (.num 5)]) "y" [] (⟨[(1, 3)], [(3, .arr [])], 4, []⟩ : ExtractState)
    (.cref 3) (⟨[(1, 3)], [(3, .arr [])], 4, []⟩ : ExtractState)
    (by decide) (by decide) rfl (by decide) (by refine ⟨?_, ?_⟩ <;> decide) (by decide)
  exact h

/-- C4: `extractFiles` terminates and returns without raising on inputs with
a self-referential container: the fuel bound of the top-level call always
suffices (first conjunct — the termination argument behind the `recursed`
set), the full call returns a success value (second conjunct), and a
container identity already open on the current branch is not descended into
again: since every open container was registered in the clone memo before its
children were recursed into, the revisit returns the registered clone
reference immediately with the state — in particular the files map —
completely unchanged (third conjunct). -/
theorem cyclic_terminates_skips_open (call : JSCall) (H : Heap) (f : JSValue → Bool)
    (p : String) (fuel : Nat) (id a : Nat) (node : JSNode) (path : String)
    (recursed : List Nat) (st : ExtractState)
    (hargs : call.argsLen ≠ 0) (hcls : call.classifier = .fn f) (hpath : call.path = .str p)
    (hcyc : ∃ cid cnode cseg, alookup H cid = some cnode ∧
      (cseg, JSValue.ref cid) ∈ kidsOf cnode)
    (hH : alookup H id = some node) (hrecog : recognized node = true)
    (hfile : f (.ref id) = false)
    (hopen : id ∈ recursed) (hreg : alookup st.clones id = some a) :
    (recurseF H f ((heapIds H).card + 1) call.value p [] (initState H)).isSome = true ∧
    (extractFilesJS call H).isOk = true ∧
    recurseF H f (fuel + 1) (.ref id) path recursed st = some (.cref a, st) := by
  refine ⟨?_, ?_, ?_⟩
  · apply recurseF_isSome
    unfold fuelMeasure
    have : ((heapIds H).filter (fun x => x ∉ ([] : List Nat))).card ≤ (heapIds H).card :=
      Finset.card_filter_le _ _
    omega
  · rw [extractFilesJS, if_neg hargs, hcls, hpath]
    rfl
  · rw [recurseF_succ]
    rw [if_neg (by rw [hfile]; exact Bool.false_ne_true)]
    simp only [hH]
    rw [if_pos hrecog]
    rw [cloneContainer]
    rw [registerResult_some hreg]
    simp only []
    rw [if_pos hopen]

theorem cyclic_terminates_skips_open_witness :
    (extractFilesJS ⟨3, .ref 0, .fn (fun _ => false), .str ""⟩ heapC10).isOk = true ∧
    recurseF heapC10 (fun _ => false) 2 (.ref 0) "x" [0] stShared =
      some (.cref 1, stShared) := by
  have h := cyclic_terminates_skips_open ⟨3, .ref 0, .fn (fun _ => false), .str ""⟩
    heapC10 (fun _ => false) "" 1 0 1 (.arr [.ref 0]) "x" [0] stShared
    (by decide) rfl rfl ⟨0, .arr [.ref 0], "0", by decide, by decide⟩
    (by decide) (by decide) rfl (by decide) (by decide)
  exact ⟨h.2.1, h.2.2⟩

/-- C8: the extraction never writes the input graph.  The input heap is only
read, and every clone node is allocated at an address at or above
`freshBase H`, which is strictly above every container identity of the input
heap — so no input identity is ever bound in the clone store: all constructed
data (clone store, clone memo, files map) is new. -/
theorem input_heap_not_written (H : Heap) (isF : JSValue → Bool) (v : JSValue) (p : String)
    (id : Nat) (hid : id ∈ heapIds H) :
    alookup (extractFiles H isF v p).2.cheap id = none := by
  rcases hres : recurseF H isF ((heapIds H).card + 1) v p [] (initState H) with _ | out
  · have hs := recurseF_isSome H isF ((heapIds H).card + 1) v p [] (initState H) (by
      unfold fuelMeasure
      have : ((heapIds H).filter (fun x => x ∉ ([] : List Nat))).card ≤ (heapIds H).card :=
        Finset.card_filter_le _ _
      omega)
    rw [hres] at hs
    simp at hs
  · obtain ⟨rc, stf⟩ := out
    rw [extractFiles_eq hres]
    have hm := recurseF_mono H isF ((heapIds H).card + 1) v p [] (initState H) rc stf hres
    apply alookup_eq_none
    intro hmem
    rcases hm.2.2.2.1 id hmem with h1 | h1
    · simp [initState, akeys] at h1
    · have h2 := lt_freshBase_of_mem hid
      have h3 : (initState H).next = freshBase H := rfl
      rw [h3] at h1
      omega

theorem input_heap_not_written_witness :
    (0 ∈ heapIds heapC1) ∧
    alookup (extractFiles heapC1 isFileC1 (.ref 0) "").2.cheap 0 = none :=
  ⟨by decide, input_heap_not_written heapC1 isFileC1 (.ref 0) "" 0 (by decide)⟩

theorem runKids_refc (H : Heap) (isF : JSValue → Bool) (fuel : Nat) (c a0 : Nat)
    (recursedD : List Nat) (hfC : isF (.ref c) = false)
    (cnode : JSNode) (hHc : alookup H c = some cnode) (hrecog : recognized cnode = true) :
    ∀ ks pfx st cs st',
      runKids (fun kid p s => recurseF H isF fuel kid p recursedD s) ks pfx st =
        some (cs, st') →
      alookup st.clones c = some a0 →
      cs.length = ks.length ∧ alookup st'.clones c = some a0 ∧
      ∀ k (hk : k < cs.length) (hk2 : k < ks.length),
        (ks.get ⟨k, hk2⟩).2 = .ref c → cs.get ⟨k, hk⟩ = .cref a0 := by
  intro ks
  induction ks with
  | nil =>
    intro pfx st cs st' h ha0
    rw [runKids] at h
    simp only [Option.some_inj, Prod.mk.injEq] at h
    obtain ⟨h1, h2⟩ := h
    subst h2
    subst h1
    exact ⟨rfl, ha0, fun k hk hk2 _ => absurd hk (by simp)⟩
  | cons hd tl ih =>
    intro pfx st cs st' h ha0
    obtain ⟨seg, kid⟩ := hd
    rw [runKids] at h
    rcases hr : recurseF H isF fuel kid (pfx ++ seg) recursedD st with _ | ⟨c1, s1⟩
    · rw [hr] at h
      exact absurd h (by simp)
    · rw [hr] at h
      simp only [] at h
      rcases hk : runKids (fun kid p s => recurseF H isF fuel kid p recursedD s) tl pfx s1
          with _ | ⟨cs1, s2⟩
      · rw [hk] at h
        exact absurd h (by simp)
      · rw [hk] at h
        simp only [Option.some_inj, Prod.mk.injEq] at h
        obtain ⟨h1, h2⟩ := h
        subst h2
        subst h1
        have hm1 := recurseF_mono H isF fuel kid (pfx ++ seg) recursedD st c1 s1 hr
        obtain ⟨⟨d1, hd1⟩, _, _, _, _⟩ := hm1
        have ha1 : alookup s1.clones c = some a0 := by
          rw [hd1]
          exact alookup_append_some d1 ha0
        obtain ⟨hlen, ha2, hpos⟩ := ih pfx s1 cs1 s2 hk ha1
        refine ⟨by simp [hlen], ha2, ?_⟩
        intro k hk1 hk2 hkc
        cases k with
        | zero =>
          have hkid : kid = .ref c := hkc
          subst hkid
          show c1 = .cref a0
          cases fuel with
          | zero => simp [recurseF] at hr
          | succ m =>
            rw [recurseF_succ] at hr
            rw [if_neg (by rw [hfC]; exact Bool.false_ne_true)] at hr
            simp only [hHc] at hr
            rw [if_pos hrecog] at hr
            rw [cloneContainer] at hr
            rw [registerResult_some ha0] at hr
            simp only [] at hr
            by_cases hcm : c ∈ recursedD
            · rw [if_pos hcm] at hr
              simp only [Option.some_inj, Prod.mk.injEq] at hr
              exact hr.1.symm
            · rw [if_neg hcm] at hr
              rcases hrk2 : runKids
                  (fun kid p s => recurseF H isF m kid p (setAdd recursedD c) s)
                  (kidsOf cnode) (if pfx ++ seg = "" then "" else pfx ++ seg ++ ".") st
                  with _ | ⟨ch2, stX⟩
              · rw [hrk2] at hr
                exact absurd hr (by simp)
              · rw [hrk2] at hr
                simp only [Bool.false_eq_true, if_false] at hr
                simp only [Option.some_inj, Prod.mk.injEq] at hr
                exact hr.1.symm
        | succ k2 =>
          have hk1' : k2 < cs1.length := by
            simp at hk1
            omega
          have hk2' : k2 < tl.length := by
            simp at hk2
            omega
          have := hpos k2 hk1' hk2' (by simpa using hkc)
          simpa using this

/-- C10: a container that contains itself — directly or through descendants —
yields a clone that preserves the cycle.  First conjunct (direct): a first
visit of container `c` allocates its clone at `st.next` and registers it in
the memo before recursing, so every position of `c`'s own kid list holding
`c` itself holds, in the filled clone node, a reference to that same clone
address — the enclosing clone itself, not null, not a missing entry, and not
a fresh copy.  Second conjunct (through descendants): a first visit of any
container `d` whose kids contain a reference to a container `c` that is
already registered at clone address `a` — as an ancestor open on the current
branch is, having been registered before its children were recursed into —
fills `d`'s clone with a reference to that same address `a` at every such
back-edge position, so the cycle closes through the descendant's clone.
Third conjunct: the indirect cycle `a = [b]`, `b = [a]` end to end — clone 2
references clone 3 and clone 3 references clone 2. -/
theorem self_reference_clone_loop (H : Heap) (isF : JSValue → Bool) (fuel : Nat)
    (c d a : Nat) (node dnode : JSNode) (path dpath : String)
    (recursed drecursed : List Nat) (st dst : ExtractState)
    (r dr : CValue) (st' dst' : ExtractState)
    (hH : alookup H c = some node) (hrecog : recognized node = true)
    (hfile : isF (.ref c) = false) (hnotrec : c ∉ recursed)
    (hunreg : alookup st.clones c = none)
    (hrun : recurseF H isF (fuel + 1) (.ref c) path recursed st = some (r, st'))
    (hHd : alookup H d = some dnode) (hrecd : recognized dnode = true)
    (hfiled : isF (.ref d) = false) (hnotrecd : d ∉ drecursed)
    (hunregd : alookup dst.clones d = none)
    (hregc : alookup dst.clones c = some a)
    (hrund : recurseF H isF (fuel + 1) (.ref d) dpath drecursed dst = some (dr, dst')) :
    (r = .cref st.next ∧
     ∃ cs, alookup st'.cheap st.next = some (fillClone node cs) ∧
       cs.length = (kidsOf node).length ∧
       ∀ k (hk : k < cs.length) (hk2 : k < (kidsOf node).length),
         ((kidsOf node).get ⟨k, hk2⟩).2 = .ref c → cs.get ⟨k, hk⟩ = .cref st.next) ∧
    (dr = .cref dst.next ∧
     ∃ cs, alookup dst'.cheap dst.next = some (fillClone dnode cs) ∧
       cs.length = (kidsOf dnode).length ∧
       ∀ k (hk : k < cs.length) (hk2 : k < (kidsOf dnode).length),
         ((kidsOf dnode).get ⟨k, hk2⟩).2 = .ref c → cs.get ⟨k, hk⟩ = .cref a) ∧
    extractFiles heapC10b (fun _ => false) (.ref 0) "" =
      (.cref 2, ⟨[(0, 2), (1, 3)], [(2, .arr [.cref 3]), (3, .arr [.cref 2])], 4, []⟩) := by
  refine ⟨?_, ?_, by rfl⟩
  · rw [recurseF_succ] at hrun
    rw [if_neg (by rw [hfile]; exact Bool.false_ne_true)] at hrun
    simp only [hH] at hrun
    rw [if_pos hrecog] at hrun
    rw [cloneContainer] at hrun
    rw [registerResult_none hunreg] at hrun
    simp only [] at hrun
    rw [if_neg hnotrec] at hrun
    rcases hrk : runKids (fun kid p s => recurseF H isF fuel kid p (setAdd recursed c) s)
        (kidsOf node) (if path = "" then "" else path ++ ".") (regState st c node)
        with _ | ⟨children, st2⟩
    · rw [hrk] at hrun
      exact absurd hrun (by simp)
    · rw [hrk] at hrun
      simp only [if_true] at hrun
      simp only [Option.some_inj, Prod.mk.injEq] at hrun
      obtain ⟨h1, h2⟩ := hrun
      have hreg1 : alookup (regState st c node).clones c = some st.next := by
        rw [regState_clones, alookup_append, hunreg]
        show alookup ((c, st.next) :: []) c = some st.next
        rw [alookup, if_pos rfl]
      obtain ⟨hlen, hfin, hpos⟩ := runKids_refc H isF fuel c st.next (setAdd recursed c)
        hfile node hH hrecog (kidsOf node)
        (if path = "" then "" else path ++ ".") (regState st c node) children st2 hrk hreg1
      subst h2
      refine ⟨h1.symm, children, ?_, hlen, fun k hk hk2 hkc => hpos k hk hk2 hkc⟩
      show alookup (aset st2.cheap st.next (fillClone node children)) st.next =
        some (fillClone node children)
      exact alookup_aset_self _ _ _
  · rw [recurseF_succ] at hrund
    rw [if_neg (by rw [hfiled]; exact Bool.false_ne_true)] at hrund
    simp only [hHd] at hrund
    rw [if_pos hrecd] at hrund
    rw [cloneContainer] at hrund
    rw [registerResult_none hunregd] at hrund
    simp only [] at hrund
    rw [if_neg hnotrecd] at hrund
    rcases hrkd : runKids (fun kid p s => recurseF H isF fuel kid p (setAdd drecursed d) s)
        (kidsOf dnode) (if dpath = "" then "" else dpath ++ ".") (regState dst d dnode)
        with _ | ⟨dchildren, dst2⟩
    · rw [hrkd] at hrund
      exact absurd hrund (by simp)
    · rw [hrkd] at hrund
      simp only [if_true] at hrund
      simp only [Option.some_inj, Prod.mk.injEq] at hrund
      obtain ⟨hd1, hd2⟩ := hrund
      have hregSd : alookup (regState dst d dnode).clones c = some a := by
        rw [regState_clones]
        exact alookup_append_some _ hregc
      obtain ⟨hlend, hfind, hposd⟩ := runKids_refc H isF fuel c a (setAdd drecursed d)
        hfile node hH hrecog (kidsOf dnode)
        (if dpath = "" then "" else dpath ++ ".") (regState dst d dnode) dchildren dst2
        hrkd hregSd
      subst hd2
      refine ⟨hd1.symm, dchildren, ?_, hlend, fun k hk hk2 hkc => hposd k hk hk2 hkc⟩
      show alookup (aset dst2.cheap dst.next (fillClone dnode dchildren)) dst.next =
        some (fillClone dnode dchildren)
      exact alookup_aset_self _ _ _

theorem self_reference_clone_loop_witness :
    ((fun _ => false) (JSValue.ref 0) = false) ∧
    extractFiles heapC10b (fun _ => false) (.ref 0) "" =
      (.cref 2, ⟨[(0, 2), (1, 3)], [(2, .arr [.cref 3]), (3, .arr [.cref 2])], 4, []⟩) := by
  have h := self_reference_clone_loop heapC10b (fun _ => false) 2 0 1 2
    (.arr [.ref 1]) (.arr [.ref 0]) "" "0" [] [0]
    (initState heapC10b) (⟨[(0, 2)], [(2, .arr [])], 3, []⟩ : ExtractState)
    (.cref 2) (.cref 3)
    (⟨[(0, 2), (1, 3)], [(2, .arr [.cref 3]), (3, .arr [.cref 2])], 4, []⟩ : ExtractState)
    (⟨[(0, 2), (1, 3)], [(2, .arr []), (3, .arr [.cref 2])], 4, []⟩ : ExtractState)
    (by decide) (by decide) rfl (by decide) (by decide) (by decide)
    (by decide) (by decide) rfl (by decide) (by decide) (by decide) (by decide)
  exact ⟨rfl, h.2.2⟩

theorem Reach_trans {H : Heap} {u v w : JSValue} (h1 : Reach H u v) (h2 : Reach H v w) :
    Reach H u w := by
  induction h2 with
  | refl => exact h1
  | step hprev hH hk ih => exact Reach.step ih hH hk

theorem Reach_kid {H : Heap} {id : Nat} {node : JSNode} {seg : String} {w : JSValue}
    (hH : alookup H id = some node) (hk : (seg, w) ∈ kidsOf node) : Reach H (.ref id) w :=
  Reach.step (Reach.refl _) hH hk

theorem recognized_of_kid {node : JSNode} {seg : String} {w : JSValue}
    (h : (seg, w) ∈ kidsOf node) : recognized node = true := by
  cases node with
  | arr items => rfl
  | flist items => rfl
  | obj proto entries => rfl
  | other => simp [kidsOf] at h

theorem mem_setAdd_of_mem {s : List Nat} {a x : Nat} (h : x ∈ s) : x ∈ setAdd s a := by
  unfold setAdd
  split
  · exact h
  · exact List.mem_append_left _ h

theorem mem_setAdd_cases {s : List Nat} {a x : Nat} (h : x ∈ setAdd s a) : x ∈ s ∨ x = a := by
  unfold setAdd at h
  split at h
  · exact Or.inl h
  · rcases List.mem_append.1 h with h1 | h1
    · exact Or.inl h1
    · exact Or.inr (List.mem_singleton.1 h1)

theorem alookup_snoc {α β : Type} [DecidableEq α] (l : List (α × β)) (k x : α) (v : β) :
    alookup (l ++ [(k, v)]) x =
      match alookup l x with
      | some b => some b
      | none => if k = x then some v else none := by
  rw [alookup_append]
  rfl

theorem CKidOk_ref_rec {H : Heap} {clones : List (Nat × Nat)} {id : Nat} {node : JSNode}
    {c : CValue} (hH : alookup H id = some node) (hrec : recognized node = true) :
    CKidOk H clones (.ref id) c ↔ ∃ a, alookup clones id = some a ∧ c = .cref a := by
  unfold CKidOk
  simp only [hH]
  rw [if_pos hrec]

theorem CKidOk_ref_none {H : Heap} {clones : List (Nat × Nat)} {id : Nat} {c : CValue}
    (hH : alookup H id = none) :
    CKidOk H clones (.ref id) c ↔ c = .orig (.ref id) := by
  unfold CKidOk
  simp only [hH]

theorem CKidOk_ref_notrec {H : Heap} {clones : List (Nat × Nat)} {id : Nat} {node : JSNode}
    {c : CValue} (hH : alookup H id = some node) (hrec : recognized node = false) :
    CKidOk H clones (.ref id) c ↔ c = .orig (.ref id) := by
  unfold CKidOk
  simp only [hH]
  rw [if_neg (by rw [hrec]; exact Bool.false_ne_true)]

theorem CKidOk_extend {H : Heap} {clones d : List (Nat × Nat)} {w : JSValue} {c : CValue}
    (h : CKidOk H clones w c) : CKidOk H (clones ++ d) w c := by
  cases w with
  | scalar s => exact h
  | file i => exact h
  | ref id =>
    rcases hH : alookup H id with _ | node
    · rw [CKidOk_ref_none hH] at h ⊢
      exact h
    · by_cases hrec : recognized node = true
      · rw [CKidOk_ref_rec hH hrec] at h ⊢
        obtain ⟨a, ha, hc⟩ := h
        exact ⟨a, alookup_append_some d ha, hc⟩
      · rw [CKidOk_ref_notrec hH (Bool.not_eq_true _ ▸ hrec)] at h ⊢
        exact h

theorem CNodeOk_extend {H : Heap} {clones d : List (Nat × Nat)} {node : JSNode} {cn : CNode}
    (h : CNodeOk H clones node cn) : CNodeOk H (clones ++ d) node cn := by
  obtain ⟨cs, hcn, hall⟩ := h
  exact ⟨cs, hcn, List.Forall₂.imp (fun a b hab => CKidOk_extend hab) hall⟩

theorem forall2_mem_left {α β : Type} {R : α → β → Prop} :
    ∀ {l1 : List α} {l2 : List β}, List.Forall₂ R l1 l2 → ∀ a ∈ l1, ∃ b ∈ l2, R a b := by
  intro l1 l2 h
  induction h with
  | nil => intro a ha; simp at ha
  | cons hab htl ih =>
    intro a ha
    rcases List.mem_cons.1 ha with h1 | h1
    · subst h1
      exact ⟨_, List.mem_cons_self _ _, hab⟩
    · obtain ⟨b, hb, hr⟩ := ih a h1
      exact ⟨b, List.mem_cons_of_mem _ hb, hr⟩

theorem alookup_snd_ne {l : List (Nat × Nat)} (hnd : (l.map Prod.snd).Nodup)
    {i j a b : Nat} (hi : alookup l i = some a) (hj : alookup l j = some b)
    (hij : i ≠ j) : a ≠ b := by
  intro hab
  subst hab
  have h1 := alookup_mem hi
  have h2 := alookup_mem hj
  have h3 := List.inj_on_of_nodup_map hnd h1 h2 rfl
  rw [Prod.mk.injEq] at h3
  exact hij h3.1

theorem InvSt_init (H : Heap) : InvSt H (initState H) [] := by
  refine ⟨⟨?_, ?_⟩, ?_, ?_, ?_⟩
  · intro a ha
    simp [initState, akeys] at ha
  · intro q hq
    simp [initState] at hq
  · simp [initState]
  · intro id hmem
    simp at hmem
  · intro id a h
    simp [initState, alookup] at h

theorem InvSt_setAdd {H : Heap} {st : ExtractState} {recursed : List Nat} {id a : Nat}
    (hInv : InvSt H st recursed) (hreg : alookup st.clones id = some a) :
    InvSt H st (setAdd recursed id) := by
  obtain ⟨hwf, hnd, hopen, hcomp⟩ := hInv
  refine ⟨hwf, hnd, ?_, ?_⟩
  · intro x hx
    rcases mem_setAdd_cases hx with h1 | h1
    · exact hopen x h1
    · subst h1
      rw [hreg]
      rfl
  · intro id2 a2 h2
    obtain ⟨node2, hH2, hr2, hc2⟩ := hcomp id2 a2 h2
    exact ⟨node2, hH2, hr2, fun hnm => hc2 (fun hm => hnm (mem_setAdd_of_mem hm))⟩

theorem InvSt_regState {H : Heap} {st : ExtractState} {recursed : List Nat} {id : Nat}
    {node : JSNode} (hInv : InvSt H st recursed) (hH : alookup H id = some node)
    (hrecog : recognized node = true) (hunreg : alookup st.clones id = none) :
    InvSt H (regState st id node) (setAdd recursed id) := by
  obtain ⟨hwf, hnd, hopen, hcomp⟩ := hInv
  refine ⟨(mono_register st id node).2.2.2.2 hwf, ?_, ?_, ?_⟩
  · rw [regState_clones, List.map_append]
    refine List.Nodup.append hnd (List.nodup_singleton _) ?_
    intro x hx hx2
    rw [List.map_singleton, List.mem_singleton] at hx2
    subst hx2
    rw [List.mem_map] at hx
    obtain ⟨q, hq, hq2⟩ := hx
    have := hwf.2 q hq
    omega
  · intro x hx
    rw [regState_clones, alookup_snoc]
    rcases mem_setAdd_cases hx with h1 | h1
    · have := hopen x h1
      rcases hl : alookup st.clones x with _ | b
      · rw [hl] at this
        simp at this
      · rfl
    · subst h1
      rw [hunreg, if_pos rfl]
      rfl
  · intro id2 a2 h2
    rw [regState_clones, alookup_snoc] at h2
    rcases hl : alookup st.clones id2 with _ | b
    · rw [hl] at h2
      simp only [] at h2
      split at h2
      · rename_i hid2
        subst hid2
        simp only [Option.some_inj] at h2
        subst h2
        refine ⟨node, hH, hrecog, ?_⟩
        intro hnm
        exact absurd (setAdd_mem_self recursed id) hnm
      · simp at h2
    · rw [hl] at h2
      simp only [Option.some_inj] at h2
      subst h2
      obtain ⟨node2, hH2, hr2, hc2⟩ := hcomp id2 b hl
      refine ⟨node2, hH2, hr2, ?_⟩
      intro hnm
      have hnm2 : id2 ∉ recursed := fun hm => hnm (mem_setAdd_of_mem hm)
      obtain ⟨cn, hcheap, hcnok⟩ := hc2 hnm2
      refine ⟨cn, ?_, ?_⟩
      · rw [regState_cheap]
        exact alookup_append_some _ hcheap
      · rw [regState_clones]
        exact CNodeOk_extend hcnok

theorem recurseF_nofile (H : Heap) (isF : JSValue → Bool) :
    ∀ fuel v path recursed st r st',
      recurseF H isF fuel v path recursed st = some (r, st') →
      (∀ w, Reach H v w → isF w = false) →
      InvSt H st recursed →
      st'.files = st.files ∧ InvSt H st' recursed ∧ CKidOk H st'.clones v r := by
  intro fuel
  induction fuel with
  | zero =>
    intro v path recursed st r st' h hnf hInv
    simp [recurseF] at h
  | succ n ih =>
    have hkids : ∀ ks pfx (recursedD : List Nat) st1 cs st2,
        runKids (fun kid p s => recurseF H isF n kid p recursedD s) ks pfx st1 =
          some (cs, st2) →
        (∀ kv ∈ ks, ∀ w, Reach H kv.2 w → isF w = false) →
        InvSt H st1 recursedD →
        st2.files = st1.files ∧ InvSt H st2 recursedD ∧
          List.Forall₂ (fun kv c => CKidOk H st2.clones kv.2 c) ks cs := by
      intro ks
      induction ks with
      | nil =>
        intro pfx recursedD st1 cs st2 h hnf hInv
        rw [runKids] at h
        simp only [Option.some_inj, Prod.mk.injEq] at h
        obtain ⟨h1, h2⟩ := h
        subst h2
        subst h1
        exact ⟨rfl, hInv, List.Forall₂.nil⟩
      | cons hd tl ihk =>
        intro pfx recursedD st1 cs st2 h hnf hInv
        obtain ⟨seg, kid⟩ := hd
        rw [runKids] at h
        rcases hr : recurseF H isF n kid (pfx ++ seg) recursedD st1 with _ | ⟨c1, s1⟩
        · rw [hr] at h
          exact absurd h (by simp)
        · rw [hr] at h
          simp only [] at h
          rcases hk : runKids (fun kid p s => recurseF H isF n kid p recursedD s) tl pfx s1
              with _ | ⟨cs1, s2⟩
          · rw [hk] at h
            exact absurd h (by simp)
          · rw [hk] at h
            simp only [Option.some_inj, Prod.mk.injEq] at h
            obtain ⟨h1, h2⟩ := h
            subst h2
            subst h1
            obtain ⟨hf1, hInv1, hck1⟩ := ih kid (pfx ++ seg) recursedD st1 c1 s1 hr
              (hnf (seg, kid) (List.mem_cons_self _ _)) hInv
            obtain ⟨hf2, hInv2, hall⟩ := ihk pfx recursedD s1 cs1 s2 hk
              (fun kv hm => hnf kv (List.mem_cons_of_mem _ hm)) hInv1
            refine ⟨by rw [hf2, hf1], hInv2, ?_⟩
            refine List.Forall₂.cons ?_ hall
            have hm2 : MonoSt s1 s2 :=
              runKids_mono (fun k p s rr s' hc => recurseF_mono H isF n k p _ s rr s' hc)
                _ _ _ _ _ hk
            obtain ⟨d2, hd2⟩ := hm2.1
            rw [hd2]
            exact CKidOk_extend hck1
    intro v path recursed st r st' h hnf hInv
    rw [recurseF_succ] at h
    by_cases hfv : isF v = true
    · have hcontra := hnf v (Reach.refl v)
      rw [hfv] at hcontra
      cases hcontra
    · rw [if_neg hfv] at h
      cases v with
      | scalar s =>
        simp only [Option.some_inj, Prod.mk.injEq] at h
        obtain ⟨h1, h2⟩ := h
        subst h2
        subst h1
        exact ⟨rfl, hInv, rfl⟩
      | file i =>
        simp only [Option.some_inj, Prod.mk.injEq] at h
        obtain ⟨h1, h2⟩ := h
        subst h2
        subst h1
        exact ⟨rfl, hInv, rfl⟩
      | ref id =>
        rcases hH : alookup H id with _ | node
        · simp only [hH, Option.some_inj, Prod.mk.injEq] at h
          obtain ⟨h1, h2⟩ := h
          subst h2
          subst h1
          exact ⟨rfl, hInv, (CKidOk_ref_none hH).2 rfl⟩
        · simp only [hH] at h
          by_cases hrecog : recognized node = true
          · rw [if_pos hrecog] at h
            rw [cloneContainer] at h
            have hnfk : ∀ kv ∈ kidsOf node, ∀ w, Reach H kv.2 w → isF w = false := by
              intro kv hkv w hw
              obtain ⟨sg, kd⟩ := kv
              exact hnf w (Reach_trans (Reach_kid hH hkv) hw)
            rcases hreg : alookup st.clones id with _ | a
            · rw [registerResult_none hreg] at h
              simp only [] at h
              by_cases hidr : id ∈ recursed
              · have hcontra := hInv.2.2.1 id hidr
                rw [hreg] at hcontra
                simp at hcontra
              · rw [if_neg hidr] at h
                rcases hrk : runKids
                    (fun kid p s => recurseF H isF n kid p (setAdd recursed id) s)
                    (kidsOf node) (if path = "" then "" else path ++ ".")
                    (regState st id node) with _ | ⟨children, st2⟩
                · rw [hrk] at h
                  exact absurd h (by simp)
                · rw [hrk] at h
                  simp only [if_true] at h
                  simp only [Option.some_inj, Prod.mk.injEq] at h
                  obtain ⟨h1, h2⟩ := h
                  have hInv1 := InvSt_regState hInv hH hrecog hreg
                  obtain ⟨hfK, hInv2, hall⟩ := hkids (kidsOf node)
                    (if path = "" then "" else path ++ ".") (setAdd recursed id)
                    (regState st id node) children st2 hrk hnfk hInv1
                  have hregS : alookup (regState st id node).clones id = some st.next := by
                    rw [regState_clones, alookup_snoc, hreg]
                    simp
                  have hm2 : MonoSt (regState st id node) st2 :=
                    runKids_mono
                      (fun k p s rr s' hc => recurseF_mono H isF n k p _ s rr s' hc)
                      _ _ _ _ _ hrk
                  obtain ⟨dK, hdK⟩ := hm2.1
                  have hreg2 : alookup st2.clones id = some st.next := by
                    rw [hdK]
                    exact alookup_append_some dK hregS
                  subst h2
                  refine ⟨?_, ?_, ?_⟩
                  · show st2.files = st.files
                    rw [hfK, regState_files]
                  · obtain ⟨hwf2, hnd2, hopen2, hcomp2⟩ := hInv2
                    have hnextle : st.next + 1 ≤ st2.next := by
                      have h9 := hm2.2.1
                      rw [regState_next] at h9
                      exact h9
                    refine ⟨⟨?_, ?_⟩, hnd2, ?_, ?_⟩
                    · intro a2 ha2
                      show a2 < st2.next
                      have ha2' : a2 ∈ akeys (aset st2.cheap st.next (fillClone node children)) :=
                        ha2
                      rcases akeys_aset_sub _ _ _ a2 ha2' with h9 | h9
                      · exact hwf2.1 a2 h9
                      · omega
                    · intro q hq
                      exact hwf2.2 q hq
                    · intro x hx
                      exact hopen2 x (mem_setAdd_of_mem hx)
                    · intro id2 a2 hl2
                      obtain ⟨node2, hH2, hr2, hc2⟩ := hcomp2 id2 a2 hl2
                      refine ⟨node2, hH2, hr2, ?_⟩
                      intro hnm2
                      by_cases hq : id2 = id
                      · subst hq
                        rw [hH] at hH2
                        have hnode : node = node2 := by
                          injection hH2
                        rw [hreg2] at hl2
                        have ha2eq : a2 = st.next := by
                          injection hl2 with h9
                          exact h9.symm
                        subst ha2eq
                        refine ⟨fillClone node children, ?_, ?_⟩
                        · show alookup (aset st2.cheap st.next (fillClone node children))
                            st.next = some (fillClone node children)
                          exact alookup_aset_self _ _ _
                        · subst hnode
                          exact ⟨children, rfl, hall⟩
                      · have hnm3 : id2 ∉ setAdd recursed id := by
                          intro hm
                          rcases mem_setAdd_cases hm with hmm | hmm
                          · exact hnm2 hmm
                          · exact hq hmm
                        obtain ⟨cn, hcheap, hcnok⟩ := hc2 hnm3
                        refine ⟨cn, ?_, hcnok⟩
                        show alookup (aset st2.cheap st.next (fillClone node children)) a2 =
                          some cn
                        rw [alookup_aset_ne _ _ _ _ (alookup_snd_ne hnd2 hl2 hreg2 hq)]
                        exact hcheap
                  · rw [CKidOk_ref_rec hH hrecog]
                    exact ⟨st.next, hreg2, h1.symm⟩
            · rw [registerResult_some hreg] at h
              simp only [] at h
              by_cases hidr : id ∈ recursed
              · rw [if_pos hidr] at h
                simp only [Option.some_inj, Prod.mk.injEq] at h
                obtain ⟨h1, h2⟩ := h
                subst h2
                refine ⟨rfl, hInv, ?_⟩
                rw [CKidOk_ref_rec hH hrecog]
                exact ⟨a, hreg, h1.symm⟩
              · rw [if_neg hidr] at h
                rcases hrk : runKids
                    (fun kid p s => recurseF H isF n kid p (setAdd recursed id) s)
                    (kidsOf node) (if path = "" then "" else path ++ ".") st
                    with _ | ⟨children, st2⟩
                · rw [hrk] at h
                  exact absurd h (by simp)
                · rw [hrk] at h
                  simp only [Bool.false_eq_true, if_false] at h
                  simp only [Option.some_inj, Prod.mk.injEq] at h
                  obtain ⟨h1, h2⟩ := h
                  subst h2
                  have hInvD := InvSt_setAdd hInv hreg
                  obtain ⟨hfK, hInv2, hall⟩ := hkids (kidsOf node)
                    (if path = "" then "" else path ++ ".") (setAdd recursed id)
                    st children st2 hrk hnfk hInvD
                  have hm2 : MonoSt st st2 :=
                    runKids_mono
                      (fun k p s rr s' hc => recurseF_mono H isF n k p _ s rr s' hc)
                      _ _ _ _ _ hrk
                  obtain ⟨dK, hdK⟩ := hm2.1
                  have hreg2 : alookup st2.clones id = some a := by
                    rw [hdK]
                    exact alookup_append_some dK hreg
                  refine ⟨hfK, ?_, ?_⟩
                  · obtain ⟨hwf2, hnd2, hopen2, hcomp2⟩ := hInv2
                    refine ⟨hwf2, hnd2, fun x hx => hopen2 x (mem_setAdd_of_mem hx), ?_⟩
                    intro id2 a2 hl2
                    obtain ⟨node2, hH2, hr2, hc2⟩ := hcomp2 id2 a2 hl2
                    refine ⟨node2, hH2, hr2, ?_⟩
                    intro hnm2
                    by_cases hq : id2 = id
                    · subst hq
                      rw [hreg2] at hl2
                      have ha2eq : a2 = a := by
                        injection hl2 with h9
                        exact h9.symm
                      subst ha2eq
                      obtain ⟨node3, hH3, hr3, hc3⟩ := hInv.2.2.2 id2 a2 hreg
                      obtain ⟨cn, hcheap, hcnok⟩ := hc3 hnm2
                      have hnode : node3 = node2 := by
                        rw [hH3] at hH2
                        injection hH2
                      refine ⟨cn, ?_, ?_⟩
                      · have haw : a2 < st.next := hInv.1.2 (id2, a2) (alookup_mem hreg)
                        rw [hm2.2.2.1 a2 haw]
                        exact hcheap
                      · rw [hdK]
                        subst hnode
                        exact CNodeOk_extend hcnok
                    · have hnm3 : id2 ∉ setAdd recursed id := by
                        intro hm
                        rcases mem_setAdd_cases hm with hmm | hmm
                        · exact hnm2 hmm
                        · exact hq hmm
                      exact hc2 hnm3
                  · rw [CKidOk_ref_rec hH hrecog]
                    exact ⟨a, hreg2, h1.symm⟩
          · rw [if_neg hrecog] at h
            simp only [Option.some_inj, Prod.mk.injEq] at h
            obtain ⟨h1, h2⟩ := h
            subst h2
            subst h1
            exact ⟨rfl, hInv,
              (CKidOk_ref_notrec hH (Bool.not_eq_true _ ▸ hrecog)).2 rfl⟩

/-- C2: when the classifier rejects every value reachable in the input graph
(in particular, a classifier that always returns false), the extraction
returns an empty files map and a clone deep-structurally equal to the input:
the root clone corresponds shallowly to the root value, every reachable
recognized container (array, `FileList`, plain object) has a registered,
completely filled clone node whose entries correspond pointwise to the
container's children, and every clone node lives at a fresh address — no
input address is bound in the clone store, so all containers in the clone
are newly allocated. -/
theorem nofile_clone_deep_equal (H : Heap) (isF : JSValue → Bool) (v : JSValue) (p : String)
    (hnf : ∀ w, Reach H v w → isF w = false) :
    (extractFiles H isF v p).2.files = [] ∧
    CKidOk H (extractFiles H isF v p).2.clones v (extractFiles H isF v p).1 ∧
    (∀ id node, Reach H v (.ref id) → alookup H id = some node → recognized node = true →
      ∃ a cn, alookup (extractFiles H isF v p).2.clones id = some a ∧
        alookup (extractFiles H isF v p).2.cheap a = some cn ∧
        CNodeOk H (extractFiles H isF v p).2.clones node cn) ∧
    (∀ id, id ∈ heapIds H → alookup (extractFiles H isF v p).2.cheap id = none) := by
  rcases hres : recurseF H isF ((heapIds H).card + 1) v p [] (initState H) with _ | out
  · have hs := recurseF_isSome H isF ((heapIds H).card + 1) v p [] (initState H) (by
      unfold fuelMeasure
      have hcard : ((heapIds H).filter (fun x => x ∉ ([] : List Nat))).card ≤
          (heapIds H).card := Finset.card_filter_le _ _
      omega)
    rw [hres] at hs
    simp at hs
  · obtain ⟨rc, stf⟩ := out
    rw [extractFiles_eq hres]
    obtain ⟨hfiles, hInvF, hck⟩ := recurseF_nofile H isF ((heapIds H).card + 1) v p []
      (initState H) rc stf hres hnf (InvSt_init H)
    have hmono := recurseF_mono H isF ((heapIds H).card + 1) v p [] (initState H) rc stf hres
    have hregAll : ∀ w, Reach H v w → ∀ id, w = .ref id →
        ∀ node, alookup H id = some node → recognized node = true →
        ∃ a, alookup stf.clones id = some a := by
      intro w hw
      induction hw with
      | refl =>
        intro id hveq node hHn hrec
        subst hveq
        rw [CKidOk_ref_rec hHn hrec] at hck
        obtain ⟨a, ha, _⟩ := hck
        exact ⟨a, ha⟩
      | step hprev hHn hkmem ihp =>
        rename_i idP nodeP segP wP
        intro id2 hkeq node2 hH2 hrec2
        subst hkeq
        obtain ⟨aP, haP⟩ := ihp idP rfl nodeP hHn (recognized_of_kid hkmem)
        obtain ⟨nodeX, hHX, hrecX, hcompP⟩ := hInvF.2.2.2 idP aP haP
        have hnx : nodeP = nodeX := by
          rw [hHn] at hHX
          injection hHX
        subst hnx
        obtain ⟨cn, hcheap, hcnok⟩ := hcompP (by simp)
        obtain ⟨cs, hfill, hallX⟩ := hcnok
        obtain ⟨c, hcm, hckW⟩ := forall2_mem_left hallX (segP, .ref id2) hkmem
        rw [CKidOk_ref_rec hH2 hrec2] at hckW
        obtain ⟨a2, ha2, _⟩ := hckW
        exact ⟨a2, ha2⟩
    refine ⟨by rw [hfiles]; rfl, hck, ?_, ?_⟩
    · intro id node hRv hHn hrec
      obtain ⟨a, ha⟩ := hregAll _ hRv id rfl node hHn hrec
      obtain ⟨nodeX, hHX, hrecX, hcomp⟩ := hInvF.2.2.2 id a ha
      have hnx : node = nodeX := by
        rw [hHn] at hHX
        injection hHX
      subst hnx
      obtain ⟨cn, hcheap, hcnok⟩ := hcomp (by simp)
      exact ⟨a, cn, ha, hcheap, hcnok⟩
    · intro id hid
      apply alookup_eq_none
      intro hmem
      rcases hmono.2.2.2.1 id hmem with h1 | h1
      · simp [initState, akeys] at h1
      · have h2 := lt_freshBase_of_mem hid
        have h3 : (initState H).next = freshBase H := rfl
        rw [h3] at h1
        omega

theorem nofile_clone_deep_equal_witness :
    (extractFiles heapC5 (fun _ => false) (.ref 0) "").2.files = [] ∧
    CKidOk heapC5 (extractFiles heapC5 (fun _ => false) (.ref 0) "").2.clones (.ref 0)
      (extractFiles heapC5 (fun _ => false) (.ref 0) "").1 := by
  have h := nofile_clone_deep_equal heapC5 (fun _ => false) (.ref 0) "" (fun w _ => rfl)
  exact ⟨h.1, h.2.1⟩

end UploadClient
